import Mathlib

/-!
# Link Mutation Propagation Engine — verification development

A shallow embedding of `LinkService` (link.service.ts): the service that keeps
bidirectional link fields of a two-table record store consistent.  JavaScript
objects used as string-keyed dictionaries are embedded as association lists
(`List (String × _)`) preserving insertion order, which matches the iteration
order of `for … in` over plain JS objects with string keys.  Fallible JS code
(property access on `undefined`, calling `.filter` on a non-array, explicit
`throw`) is embedded in `Except String`.
-/

set_option autoImplicit false

namespace LinkService

/-- `Relationship` from `@teable-group/core`: the two cardinalities this
service distinguishes (`ManyOne` is tested for explicitly; everything else is
handled by the list-valued branch). -/
inductive Relationship where
  | manyOne
  | oneMany
deriving DecidableEq, Repr

/-- `LinkFieldOptions`: the part of a link field's options the service reads. -/
structure LinkFieldOptions where
  relationship : Relationship
  foreignTableId : String
  symmetricFieldId : String
  dbForeignKeyName : String
deriving DecidableEq, Repr

/-- `ITinyLinkField`: minimal field descriptor.  The raw row stores `options`
as a JSON string; the embedding keeps rows with their options already parsed,
so `JSON.parse` in `getTinyFieldsByIds` is the identity here. -/
structure ITinyLinkField where
  id : String
  tableId : String
  type : String
  dbFieldName : String
  options : LinkFieldOptions
deriving DecidableEq, Repr

/-- A cell value of the shape `{ id: string }[] | { id: string }` used by
`ICellContext` and `IRecordMapByTableId` (`Option CellValue` adds the
`undefined` case).  An array of `{id}` objects is represented by the list of
its `id` strings. -/
inductive CellValue where
  | one (id : String)
  | many (ids : List String)
deriving DecidableEq, Repr

/-- `ICellContext`: one observed cell edit. -/
structure ICellContext where
  id : String
  fieldId : String
  newValue : Option CellValue
  oldValue : Option CellValue
deriving DecidableEq, Repr

/-- `ICellChange` (from reference.service): one derived cell change. -/
structure ICellChange where
  tableId : String
  recordId : String
  fieldId : String
  oldValue : Option CellValue
  newValue : Option CellValue
deriving DecidableEq, Repr

/-- The `{ add: string[]; del: string[] }` leaf of `ICellMutation`. -/
structure AddDel where
  add : List String
  del : List String
deriving DecidableEq, Repr

/-- JS object lookup `m[k]` on a string-keyed object embedded as an
association list: `undefined` becomes `none`. -/
def aget {α : Type} : List (String × α) → String → Option α
  | [], _ => none
  | (k1, v) :: rest, k => if k1 = k then some v else aget rest k

/-- JS `if (!m[k]) { m[k] = d } ; f(m[k])` — get-or-insert followed by an
in-place update.  A fresh key is appended (JS objects keep insertion order);
an existing key is updated in place. -/
def aupd {α : Type} : List (String × α) → String → α → (α → α) → List (String × α)
  | [], k, d, f => [(k, f d)]
  | (k1, v) :: rest, k, d, f =>
    if k1 = k then (k1, f v) :: rest else (k1, v) :: aupd rest k d f

/-- JS plain assignment `m[k] = v` (insert or overwrite). -/
def aset {α : Type} (m : List (String × α)) (k : String) (v : α) : List (String × α) :=
  aupd m k v (fun _ => v)

/-- `ICellMutation`: foreignTableId → recordId → symmetricFieldId → add/del. -/
abbrev ICellMutation := List (String × List (String × List (String × AddDel)))

/-- `ITinyFieldMapByTableId`: tableId → fieldId → descriptor. -/
abbrev ITinyFieldMapByTableId := List (String × List (String × ITinyLinkField))

/-- One record of `IRecordMapByTableId`: fieldId → loaded value (`some none`
embeds an explicitly `null` column, which the service treats like
`undefined`). -/
abbrev IRecordFields := List (String × Option CellValue)

/-- `IRecordMapByTableId`: tableId → recordId → loaded record. -/
abbrev IRecordMapByTableId := List (String × List (String × IRecordFields))

/-- Two-level lookup `m[a][b]` where a missing first level propagates
`undefined`. -/
def aget2 {α : Type} (m : List (String × List (String × α))) (a b : String) : Option α :=
  match aget m a with
  | none => none
  | some inner => aget inner b

/-- Three-level lookup into an `ICellMutation`; missing levels behave as the
empty object, so the result is `none` exactly when the full path is absent. -/
def aget3 (m : ICellMutation) (a b c : String) : Option AddDel :=
  aget ((aget ((aget m a).getD []) b).getD []) c

/-- The `add` list stored in `m` at a key (empty when the key is absent). -/
def addsAt (m : ICellMutation) (a b c : String) : List String :=
  match aget3 m a b c with
  | some ad => ad.add
  | none => []

/-- The `del` list stored in `m` at a key (empty when the key is absent). -/
def delsAt (m : ICellMutation) (a b c : String) : List String :=
  match aget3 m a b c with
  | some ad => ad.del
  | none => []

/-- `IdPrefix.Record` from `@teable-group/core`: the record-id prefix. -/
def idPrefixRecord : String := "rec"

/-- `recordId.startsWith(IdPrefix.Record)`, computed on the character lists
(structurally, so that it evaluates inside the kernel). -/
def charsLeading : List Char → List Char → Bool
  | [], _ => true
  | _ :: _, [] => false
  | p :: ps, c :: cs => if p = c then charsLeading ps cs else false

/-- `isLinkCellItem` inside `isLinkCell`: an object with a string `id` whose
value starts with the record prefix.  In the embedded value type every item
already is an `{id}` object, so only the prefix test remains. -/
def isLinkCellItem (id : String) : Bool :=
  charsLeading idPrefixRecord.data id.data

/-- `isLinkCell`: an array whose first element is a link item, or a bare link
item.  (`value[0]` of an empty array is `undefined`, and an array itself has
no `id` property, so an empty array is not a link cell.) -/
def isLinkCell : Option CellValue → Bool
  | some (CellValue.one id) => isLinkCellItem id
  | some (CellValue.many ids) =>
    match ids with
    | [] => false
    | id :: _ => isLinkCellItem id
  | none => false

/-- `filterLinkContext`: keep the contexts whose new or old value looks like a
link cell. -/
def filterLinkContext (contexts : List ICellContext) : List ICellContext :=
  contexts.filter (fun ctx => isLinkCell ctx.newValue || isLinkCell ctx.oldValue)

/-- `polishValue` inside `getCellMutation`: flatten a cell value into the list
of referenced record ids. -/
def polishValue : Option CellValue → List String
  | some (CellValue.many ids) => ids
  | some (CellValue.one id) => [id]
  | none => []

/-- lodash `difference(a, b)`: the elements of `a` (order and multiplicity
kept) that do not occur in `b`. -/
def difference (a b : List String) : List String :=
  a.filter (fun x => !(b.contains x))

/-- `prepare(targetRecordId)` followed by one `push` onto the stored leaf:
get-or-insert the three levels, then apply `g` to the `{add, del}` leaf. -/
def prep (acc : ICellMutation) (ft rec sf : String) (g : AddDel → AddDel) : ICellMutation :=
  aupd acc ft [] (fun tm => aupd tm rec [] (fun rm => aupd rm sf ⟨[], []⟩ g))

/-- `add.push(recordId)` on a leaf. -/
def pushAdd (recordId : String) (ad : AddDel) : AddDel :=
  { ad with add := ad.add ++ [recordId] }

/-- `del.push(recordId)` on a leaf. -/
def pushDel (recordId : String) (ad : AddDel) : AddDel :=
  { ad with del := ad.del ++ [recordId] }

/-- The body of the `reduce` in `getCellMutation` for one context.  The
destructuring `fieldMapByTableId[tableId][fieldId].options` throws a
`TypeError` when the table or the field is missing from the map. -/
def ctxStep (tableId : String) (fieldMapByTableId : ITinyFieldMapByTableId)
    (acc : ICellMutation) (ctx : ICellContext) : Except String ICellMutation :=
  let oldIds := polishValue ctx.oldValue
  let newIds := polishValue ctx.newValue
  let toAdd := difference newIds oldIds
  let toDel := difference oldIds newIds
  match aget2 fieldMapByTableId tableId ctx.fieldId with
  | none => Except.error "TypeError"
  | some field =>
    let ft := field.options.foreignTableId
    let sf := field.options.symmetricFieldId
    let acc1 := aupd acc ft [] (fun tm => tm)
    let acc2 := toAdd.foldl (fun a t => prep a ft t sf (pushAdd ctx.id)) acc1
    let acc3 := toDel.foldl (fun a t => prep a ft t sf (pushDel ctx.id)) acc2
    Except.ok acc3

/-- Error-propagating left fold (the `reduce` over contexts). -/
def foldE {α β : Type} (f : α → β → Except String α) : α → List β → Except String α
  | acc, [] => Except.ok acc
  | acc, b :: rest =>
    match f acc b with
    | Except.error e => Except.error e
    | Except.ok acc2 => foldE f acc2 rest

/-- `getCellMutation`: aggregate the per-record link/unlink diff for every
affected foreign record. -/
def getCellMutation (tableId : String) (fieldMapByTableId : ITinyFieldMapByTableId)
    (contexts : List ICellContext) : Except String ICellMutation :=
  foldE (ctxStep tableId fieldMapByTableId) [] contexts

/-- `oldValue?.id` — the id of a single reference, `undefined` otherwise. -/
def singleId : Option CellValue → Option String
  | some (CellValue.one id) => some id
  | _ => none

/-- `add[0] ? { id: add[0] } : undefined` — JS truthiness on the first entry:
an absent first entry and the empty string are both falsy. -/
def jsTruthyHead : List String → Option CellValue
  | [] => none
  | id :: _ => if id = "" then none else some (CellValue.one id)

/-- `(oldValue as {id:string}[]).filter…`'s receiver: a list passes through,
an absent value behaves as the empty list (the `if (oldValue)` guard), and a
bare `{id}` object has no `.filter` method, so the call throws. -/
def jsAsList : Option CellValue → Except String (List String)
  | none => Except.ok []
  | some (CellValue.many ids) => Except.ok ids
  | some (CellValue.one _) => Except.error "TypeError"

/-- The loop body of `getCellChangeByMutation` for one
`(tableId, recordId, fieldId)` key, after `oldValue` and `field` have been
looked up: the `ManyOne` branch with its three invariant checks, and the
list-valued branch. -/
def synthOne (tableId recordId fieldId : String) (field : ITinyLinkField)
    (oldValue : Option CellValue) (ad : AddDel) : Except String ICellChange :=
  if field.options.relationship = Relationship.manyOne then
    match oldValue with
    | some (CellValue.many _) =>
      Except.error "ManyOne relationship\x27s old value should be a single record"
    | _ =>
      if 1 < ad.add.length ∨ 1 < ad.del.length then
        Except.error "ManyOne relationship should not have multiple records"
      else if ad.del ≠ [] ∧ ad.del.head? ≠ singleId oldValue then
        Except.error "ManyOne relationship\x27s old value should be equal to delete value"
      else
        Except.ok { tableId := tableId, recordId := recordId, fieldId := fieldId,
                    oldValue := oldValue, newValue := jsTruthyHead ad.add }
  else
    match jsAsList oldValue with
    | Except.error e => Except.error e
    | Except.ok base =>
      let newList := base.filter (fun item => !(ad.del.contains item)) ++ ad.add
      Except.ok { tableId := tableId, recordId := recordId, fieldId := fieldId,
                  oldValue := oldValue,
                  newValue := if newList.isEmpty then none else some (CellValue.many newList) }

/-- One key of `getCellChangeByMutation`, including the lookups
`recordMapByTableId[tableId][recordId][fieldId]` (a missing table or record
entry makes the `[fieldId]` access throw) and
`fieldMapByTableId[tableId][fieldId]`. -/
def cellChangeForKey (recordMapByTableId : IRecordMapByTableId)
    (fieldMapByTableId : ITinyFieldMapByTableId)
    (tableId recordId fieldId : String) (ad : AddDel) : Except String ICellChange :=
  match aget recordMapByTableId tableId with
  | none => Except.error "TypeError"
  | some tableRecords =>
    match aget tableRecords recordId with
    | none => Except.error "TypeError"
    | some record =>
      let oldValue := (aget record fieldId).join
      match aget2 fieldMapByTableId tableId fieldId with
      | none => Except.error "TypeError"
      | some field => synthOne tableId recordId fieldId field oldValue ad

/-- The keys of an `ICellMutation` in iteration order of the three nested
`for … in` loops. -/
def mutationEntries (m : ICellMutation) : List (String × String × String × AddDel) :=
  m.flatMap (fun p => p.2.flatMap (fun q => q.2.map (fun r => (p.1, q.1, r.1, r.2))))

/-- Error-propagating map (each loop iteration pushes one change; a `throw`
aborts the whole traversal). -/
def mapE {α β : Type} (f : α → Except String β) : List α → Except String (List β)
  | [] => Except.ok []
  | a :: rest =>
    match f a with
    | Except.error e => Except.error e
    | Except.ok b =>
      match mapE f rest with
      | Except.error e => Except.error e
      | Except.ok bs => Except.ok (b :: bs)

/-- `getCellChangeByMutation`: one derived change per mutation key, produced
by the triple nested loop. -/
def getCellChangeByMutation (cellMutation : ICellMutation)
    (recordMapByTableId : IRecordMapByTableId)
    (fieldMapByTableId : ITinyFieldMapByTableId) : Except String (List ICellChange) :=
  mapE (fun e => cellChangeForKey recordMapByTableId fieldMapByTableId e.1 e.2.1 e.2.2.1 e.2.2.2)
    (mutationEntries cellMutation)

/-- One storage-backend operation, as issued through the Prisma transaction
client.  `updateRecord t c v r` is the knex update
`UPDATE t SET c = v WHERE __id = r` (with `none` written as SQL `NULL`). -/
inductive DbOp where
  | fieldFindMany (fieldIds : List String)
  | tableMetaFindMany (tableIds : List String)
  | selectRecords (dbTableName : String) (columns : List String) (recordIds : List String)
  | updateRecord (dbTableName : String) (column : String) (value : Option String) (recordId : String)
deriving DecidableEq, Repr

/-- A stored physical row: `__id` plus the non-null columns. -/
structure PhysRow where
  id : String
  cells : List (String × CellValue)
deriving DecidableEq, Repr

/-- The storage backend visible to the service: the `field` metadata table
(options already parsed, see `ITinyLinkField`), the `tableMeta` table, and
the physical tables keyed by `dbTableName` (a table absent from the model
behaves as empty). -/
structure Db where
  fields : List ITinyLinkField
  tableMeta : List (String × String)
  tables : List (String × List PhysRow)
deriving Repr

/-- The service's effect monad: a read-only snapshot of the backend, a trace
of the storage operations issued (in order), and an `Except` for thrown JS
errors.  Writes are recorded in the trace; no claim needs the post-write
state. -/
def DbM (α : Type) : Type := Db → List DbOp × Except String α

/-- Monadic structure of `DbM`: sequence the traces, short-circuit on a
thrown error. -/
def dbmBind {α β : Type} (x : DbM α) (f : α → DbM β) : DbM β := fun db =>
  match x db with
  | (ops, Except.error e) => (ops, Except.error e)
  | (ops, Except.ok a) =>
    match f a db with
    | (ops2, r) => (ops ++ ops2, r)

def dbmPure {α : Type} (a : α) : DbM α := fun _ => ([], Except.ok a)

instance : Monad DbM where
  pure := dbmPure
  bind := dbmBind

/-- Lift a pure `Except` computation (no storage access) into `DbM`. -/
def liftE {α : Type} (r : Except String α) : DbM α := fun _ => ([], r)

/-- `prisma.field.findMany({ where: { id: { in: fieldIds } }, select: … })`:
the metadata rows whose id is requested, in table order.  Missing ids are
silently absent from the result. -/
def fieldFindMany (fieldIds : List String) : DbM (List ITinyLinkField) := fun db =>
  ([DbOp.fieldFindMany fieldIds], Except.ok (db.fields.filter (fun f => fieldIds.contains f.id)))

/-- `getTinyFieldsByIds`: fetch the rows and parse each row's options
(`JSON.parse` is the identity in this model, the rows being stored parsed). -/
def getTinyFieldsByIds (fieldIds : List String) : DbM (List ITinyLinkField) := do
  let fieldRaws ← fieldFindMany fieldIds
  pure (fieldRaws.map (fun field => field))

/-- `getTinyFieldMapByTableId`: fetch the requested fields, then their
symmetric counterparts, and fold both lists into a table-scoped map. -/
def getTinyFieldMapByTableId (fieldIds : List String) : DbM ITinyFieldMapByTableId := do
  let fields ← getTinyFieldsByIds fieldIds
  let symmetricFields ← getTinyFieldsByIds (fields.map (fun field => field.options.symmetricFieldId))
  pure ((fields ++ symmetricFields).foldl
    (fun acc field => aupd acc field.tableId [] (fun tm => aset tm field.id field)) [])

/-- `prisma.tableMeta.findMany({ where: { id: { in: tableIds } }, … })`. -/
def tableMetaFindMany (tableIds : List String) : DbM (List (String × String)) := fun db =>
  ([DbOp.tableMetaFindMany tableIds],
   Except.ok (db.tableMeta.filter (fun t => tableIds.contains t.1)))

/-- `getTableId2DbTableName`: reduce the fetched rows into an id → name map. -/
def getTableId2DbTableName (tableIds : List String) : DbM (List (String × String)) := do
  let tableRaws ← tableMetaFindMany tableIds
  pure (tableRaws.foldl (fun acc cur => aset acc cur.1 cur.2) [])

/-- JS `Set` accumulation: deduplicate keeping first occurrences in order. -/
def dedupFirst (l : List String) : List String :=
  l.foldl (fun acc x => if acc.contains x then acc else acc ++ [x]) []

/-- `SELECT <columns>, __id FROM <dbTableName> WHERE __id IN (<recordIds>)`:
the matching rows in stored order, each projected to the selected columns
(a column absent from the stored row reads as `NULL`/`none`). -/
def selectRecords (dbTableName : String) (columns : List String) (recordIds : List String) :
    DbM (List (String × List (String × Option CellValue))) := fun db =>
  ([DbOp.selectRecords dbTableName columns recordIds],
   Except.ok (((aget db.tables dbTableName).getD []).filterMap (fun row =>
     if recordIds.contains row.id then
       some (row.id, (dedupFirst columns).map (fun col => (col, aget row.cells col)))
     else none)))

/-- The per-table body of `getRecordMapByMutation`: collect the record ids and
the deduplicated field ids, translate field ids to physical column names
(`fieldMapByTableId[tableId][fieldId].dbFieldName` throws on a missing
entry), issue one batch read, and reshape the rows back to field ids. -/
def loadTableRecords (tableId2DbTableName : List (String × String))
    (fieldMapByTableId : ITinyFieldMapByTableId)
    (tableId : String) (tmap : List (String × List (String × AddDel))) :
    DbM (List (String × IRecordFields)) := do
  let recordIds := tmap.map (fun q => q.1)
  let fieldIds := dedupFirst (tmap.flatMap (fun q => q.2.map (fun r => r.1)))
  let dbFieldNames ← liftE (mapE (fun fid =>
    match aget2 fieldMapByTableId tableId fid with
    | some field => Except.ok field.dbFieldName
    | none => Except.error "TypeError") fieldIds)
  let dbFieldName2FieldId := (fieldIds.zip dbFieldNames).foldl
    (fun acc p => aset acc p.2 p.1) []
  match aget tableId2DbTableName tableId with
  | none => liftE (Except.error "SqlError")
  | some dbTableName => do
    let recordRaw ← selectRecords dbTableName dbFieldNames recordIds
    pure (recordRaw.foldl (fun acc row =>
      aset acc row.1 (row.2.foldl (fun fr cell =>
        match aget dbFieldName2FieldId cell.1 with
        | some fid => aset fr fid cell.2
        | none => fr) [])) [])

/-- `getRecordMapByMutation`: one batch read per affected foreign table. -/
def getRecordMapByMutation (tableId2DbTableName : List (String × String))
    (fieldMapByTableId : ITinyFieldMapByTableId)
    (cellMutation : ICellMutation) : DbM IRecordMapByTableId := do
  let pairs ← cellMutation.foldlM (fun (acc : IRecordMapByTableId) p => do
    let loaded ← loadTableRecords tableId2DbTableName fieldMapByTableId p.1 p.2
    pure (aset acc p.1 loaded)) []
  pure pairs

/-- `newValue ? (newValue as any).id : null` for the foreign-key write: an
absent value writes `NULL`, a single reference writes its id, and a list
value reads `.id` of an array (`undefined`), which knex rejects as an
undefined binding. -/
def fkWriteValue : Option CellValue → Except String (Option String)
  | none => Except.ok none
  | some (CellValue.one id) => Except.ok (some id)
  | some (CellValue.many _) => Except.error "SqlError"

/-- `updateForeignKey`: for each change, look the field up
(`field.options.dbForeignKeyName` throws on a missing entry), skip fields
that are not `ManyOne`, and issue one `UPDATE … SET fk WHERE __id = recordId`
on the change's own table. -/
def updateForeignKey (tableId2DbTableName : List (String × String))
    (fieldMapByTableId : ITinyFieldMapByTableId) :
    List ICellChange → DbM Unit
  | [] => dbmPure ()
  | change :: rest => fun db =>
    match aget2 fieldMapByTableId change.tableId change.fieldId with
    | none => ([], Except.error "TypeError")
    | some field =>
      if field.options.relationship ≠ Relationship.manyOne then
        updateForeignKey tableId2DbTableName fieldMapByTableId rest db
      else
        match aget tableId2DbTableName change.tableId, fkWriteValue change.newValue with
        | some dbTableName, Except.ok v =>
          match updateForeignKey tableId2DbTableName fieldMapByTableId rest db with
          | (ops, r) =>
            (DbOp.updateRecord dbTableName field.options.dbForeignKeyName v change.recordId :: ops, r)
        | _, _ => ([], Except.error "SqlError")

/-- `getDerivateChangesByLink`: the engine's entry point.  An input batch with
no link-shaped context returns immediately, before any storage access. -/
def getDerivateChangesByLink (tableId : String) (contexts : List ICellContext) :
    DbM (List ICellChange) :=
  let linkContext := filterLinkContext contexts
  if linkContext.isEmpty then dbmPure []
  else do
    let fieldIds := linkContext.map (fun ctx => ctx.fieldId)
    let fieldMapByTableId ← getTinyFieldMapByTableId fieldIds
    let cellMutation ← liftE (getCellMutation tableId fieldMapByTableId linkContext)
    let tableId2DbTableName ← getTableId2DbTableName (fieldMapByTableId.map (fun p => p.1))
    let recordMapByTableId ← getRecordMapByMutation tableId2DbTableName fieldMapByTableId cellMutation
    let cellChange ← liftE (getCellChangeByMutation cellMutation recordMapByTableId fieldMapByTableId)
    if !cellChange.isEmpty then do
      updateForeignKey tableId2DbTableName fieldMapByTableId cellChange
      pure cellChange
    else
      pure cellChange

/-! ## Association-list lemmas -/

theorem aget_aupd {α : Type} (m : List (String × α)) (k : String) (d : α) (f : α → α)
    (j : String) :
    aget (aupd m k d f) j = if j = k then some (f ((aget m k).getD d)) else aget m j := by
  induction m with
  | nil =>
    by_cases h : j = k
    · subst h
      simp [aget, aupd]
    · have h2 : ¬ k = j := fun he => h he.symm
      simp [aget, aupd, h, h2]
  | cons p rest ih =>
    obtain ⟨k1, v⟩ := p
    by_cases hk : k1 = k
    · subst hk
      by_cases hj : j = k1
      · subst hj
        simp [aget, aupd]
      · have hj2 : ¬ k1 = j := fun he => hj he.symm
        simp [aget, aupd, hj, hj2]
    · by_cases hj : k1 = j
      · subst hj
        simp [aget, aupd, hk]
      · simp [aget, aupd, hk, hj, ih]

theorem aget3_aupd_id (m : ICellMutation) (ft : String) (a b c : String) :
    aget3 (aupd m ft [] (fun tm => tm)) a b c = aget3 m a b c := by
  by_cases h : a = ft
  · subst h
    simp [aget3, aget_aupd]
  · simp [aget3, aget_aupd, h]

theorem aget3_prep (acc : ICellMutation) (ft rec sf : String) (g : AddDel → AddDel)
    (a b c : String) :
    aget3 (prep acc ft rec sf g) a b c =
      if a = ft ∧ b = rec ∧ c = sf then
        some (g ((aget3 acc ft rec sf).getD ⟨[], []⟩))
      else aget3 acc a b c := by
  by_cases ha : a = ft
  · subst ha
    by_cases hb : b = rec
    · subst hb
      by_cases hc : c = sf
      · subst hc
        simp [aget3, prep, aget_aupd]
      · simp [aget3, prep, aget_aupd, hc]
    · simp [aget3, prep, aget_aupd, hb]
  · simp [aget3, prep, aget_aupd, ha]

theorem addsAt_prep_pushAdd (acc : ICellMutation) (ft t sf : String) (i : String)
    (a b c : String) :
    addsAt (prep acc ft t sf (pushAdd i)) a b c =
      addsAt acc a b c ++ (if a = ft ∧ b = t ∧ c = sf then [i] else []) := by
  unfold addsAt
  rw [aget3_prep]
  by_cases h : a = ft ∧ b = t ∧ c = sf
  · rw [if_pos h, if_pos h]
    obtain ⟨h1, h2, h3⟩ := h
    subst h1; subst h2; subst h3
    cases hg : aget3 acc a b c <;> simp [pushAdd]
  · rw [if_neg h, if_neg h]
    cases hg : aget3 acc a b c <;> simp

theorem delsAt_prep_pushAdd (acc : ICellMutation) (ft t sf : String) (i : String)
    (a b c : String) :
    delsAt (prep acc ft t sf (pushAdd i)) a b c = delsAt acc a b c := by
  unfold delsAt
  rw [aget3_prep]
  by_cases h : a = ft ∧ b = t ∧ c = sf
  · rw [if_pos h]
    obtain ⟨h1, h2, h3⟩ := h
    subst h1; subst h2; subst h3
    cases hg : aget3 acc a b c <;> simp [pushAdd]
  · rw [if_neg h]

theorem addsAt_prep_pushDel (acc : ICellMutation) (ft t sf : String) (i : String)
    (a b c : String) :
    addsAt (prep acc ft t sf (pushDel i)) a b c = addsAt acc a b c := by
  unfold addsAt
  rw [aget3_prep]
  by_cases h : a = ft ∧ b = t ∧ c = sf
  · rw [if_pos h]
    obtain ⟨h1, h2, h3⟩ := h
    subst h1; subst h2; subst h3
    cases hg : aget3 acc a b c <;> simp [pushDel]
  · rw [if_neg h]

theorem delsAt_prep_pushDel (acc : ICellMutation) (ft t sf : String) (i : String)
    (a b c : String) :
    delsAt (prep acc ft t sf (pushDel i)) a b c =
      delsAt acc a b c ++ (if a = ft ∧ b = t ∧ c = sf then [i] else []) := by
  unfold delsAt
  rw [aget3_prep]
  by_cases h : a = ft ∧ b = t ∧ c = sf
  · rw [if_pos h, if_pos h]
    obtain ⟨h1, h2, h3⟩ := h
    subst h1; subst h2; subst h3
    cases hg : aget3 acc a b c <;> simp [pushDel]
  · rw [if_neg h, if_neg h]
    cases hg : aget3 acc a b c <;> simp

/-! ## Characterization of `getCellMutation`

The nested get-or-insert structure built by the fold is characterized key by
key: the `add` list stored at `(foreignTableId, recordId, symmetricFieldId)`
is the concatenation, in context order, of each context's contribution. -/

theorem addsAt_foldl_pushAdd (ft sf i : String) (L : List String) (acc : ICellMutation)
    (a b c : String) :
    addsAt (L.foldl (fun x t => prep x ft t sf (pushAdd i)) acc) a b c =
      addsAt acc a b c ++
        (if a = ft ∧ c = sf then List.replicate (L.count b) i else []) := by
  induction L generalizing acc with
  | nil => simp
  | cons t L ih =>
    rw [List.foldl_cons, ih]
    rw [addsAt_prep_pushAdd]
    by_cases h : a = ft ∧ c = sf
    · obtain ⟨h1, h2⟩ := h
      subst h1; subst h2
      by_cases hb : b = t
      · subst hb
        simp [List.count_cons, List.replicate_succ, List.append_assoc]
      · have : ¬ (a = a ∧ b = t ∧ c = c) := fun hh => hb hh.2.1
        simp [this, List.count_cons, hb, List.append_assoc]
    · have h2 : ¬ (a = ft ∧ b = t ∧ c = sf) := fun hh => h ⟨hh.1, hh.2.2⟩
      simp [h, h2]

theorem delsAt_foldl_pushAdd (ft sf i : String) (L : List String) (acc : ICellMutation)
    (a b c : String) :
    delsAt (L.foldl (fun x t => prep x ft t sf (pushAdd i)) acc) a b c =
      delsAt acc a b c := by
  induction L generalizing acc with
  | nil => simp
  | cons t L ih => rw [List.foldl_cons, ih, delsAt_prep_pushAdd]

theorem delsAt_foldl_pushDel (ft sf i : String) (L : List String) (acc : ICellMutation)
    (a b c : String) :
    delsAt (L.foldl (fun x t => prep x ft t sf (pushDel i)) acc) a b c =
      delsAt acc a b c ++
        (if a = ft ∧ c = sf then List.replicate (L.count b) i else []) := by
  induction L generalizing acc with
  | nil => simp
  | cons t L ih =>
    rw [List.foldl_cons, ih]
    rw [delsAt_prep_pushDel]
    by_cases h : a = ft ∧ c = sf
    · obtain ⟨h1, h2⟩ := h
      subst h1; subst h2
      by_cases hb : b = t
      · subst hb
        simp [List.count_cons, List.replicate_succ, List.append_assoc]
      · have : ¬ (a = a ∧ b = t ∧ c = c) := fun hh => hb hh.2.1
        simp [this, List.count_cons, hb, List.append_assoc]
    · have h2 : ¬ (a = ft ∧ b = t ∧ c = sf) := fun hh => h ⟨hh.1, hh.2.2⟩
      simp [h, h2]

theorem addsAt_foldl_pushDel (ft sf i : String) (L : List String) (acc : ICellMutation)
    (a b c : String) :
    addsAt (L.foldl (fun x t => prep x ft t sf (pushDel i)) acc) a b c =
      addsAt acc a b c := by
  induction L generalizing acc with
  | nil => simp
  | cons t L ih => rw [List.foldl_cons, ih, addsAt_prep_pushDel]

theorem addsAt_aupd_id (m : ICellMutation) (ft : String) (a b c : String) :
    addsAt (aupd m ft [] (fun tm => tm)) a b c = addsAt m a b c := by
  unfold addsAt
  rw [aget3_aupd_id]

theorem delsAt_aupd_id (m : ICellMutation) (ft : String) (a b c : String) :
    delsAt (aupd m ft [] (fun tm => tm)) a b c = delsAt m a b c := by
  unfold delsAt
  rw [aget3_aupd_id]

/-- A context's contribution to the `add` list at key `(a, b, c)`: its record
id, one copy per occurrence of `b` in the context's `toAdd` set, provided the
context's field targets table `a` and symmetric field `c`. -/
def ctxAdds (tableId : String) (fieldMapByTableId : ITinyFieldMapByTableId)
    (ctx : ICellContext) (a b c : String) : List String :=
  match aget2 fieldMapByTableId tableId ctx.fieldId with
  | some field =>
    if a = field.options.foreignTableId ∧ c = field.options.symmetricFieldId then
      List.replicate
        ((difference (polishValue ctx.newValue) (polishValue ctx.oldValue)).count b) ctx.id
    else []
  | none => []

/-- A context's contribution to the `del` list at key `(a, b, c)`. -/
def ctxDels (tableId : String) (fieldMapByTableId : ITinyFieldMapByTableId)
    (ctx : ICellContext) (a b c : String) : List String :=
  match aget2 fieldMapByTableId tableId ctx.fieldId with
  | some field =>
    if a = field.options.foreignTableId ∧ c = field.options.symmetricFieldId then
      List.replicate
        ((difference (polishValue ctx.oldValue) (polishValue ctx.newValue)).count b) ctx.id
    else []
  | none => []

theorem ctxStep_addsAt_delsAt (tableId : String) (fm : ITinyFieldMapByTableId)
    (acc acc2 : ICellMutation) (ctx : ICellContext)
    (h : ctxStep tableId fm acc ctx = Except.ok acc2) (a b c : String) :
    addsAt acc2 a b c = addsAt acc a b c ++ ctxAdds tableId fm ctx a b c ∧
    delsAt acc2 a b c = delsAt acc a b c ++ ctxDels tableId fm ctx a b c := by
  unfold ctxStep at h
  cases hf : aget2 fm tableId ctx.fieldId with
  | none => rw [hf] at h; exact absurd h (by simp)
  | some field =>
    rw [hf] at h
    simp only [Except.ok.injEq] at h
    subst h
    constructor
    · rw [addsAt_foldl_pushDel, addsAt_foldl_pushAdd, addsAt_aupd_id]
      unfold ctxAdds
      rw [hf]
    · rw [delsAt_foldl_pushDel, delsAt_foldl_pushAdd, delsAt_aupd_id]
      unfold ctxDels
      rw [hf]

theorem foldE_addsAt_delsAt (tableId : String) (fm : ITinyFieldMapByTableId)
    (contexts : List ICellContext) (acc m : ICellMutation)
    (h : foldE (ctxStep tableId fm) acc contexts = Except.ok m) (a b c : String) :
    addsAt m a b c =
      addsAt acc a b c ++ contexts.flatMap (fun ctx => ctxAdds tableId fm ctx a b c) ∧
    delsAt m a b c =
      delsAt acc a b c ++ contexts.flatMap (fun ctx => ctxDels tableId fm ctx a b c) := by
  induction contexts generalizing acc with
  | nil =>
    unfold foldE at h
    simp only [Except.ok.injEq] at h
    subst h
    simp
  | cons ctx rest ih =>
    unfold foldE at h
    cases hs : ctxStep tableId fm acc ctx with
    | error e => rw [hs] at h; exact absurd h (by simp)
    | ok acc2 =>
      rw [hs] at h
      obtain ⟨ha, hd⟩ := ih acc2 h
      obtain ⟨ha2, hd2⟩ := ctxStep_addsAt_delsAt tableId fm acc acc2 ctx hs a b c
      constructor
      · rw [ha, ha2, List.flatMap_cons, List.append_assoc]
      · rw [hd, hd2, List.flatMap_cons, List.append_assoc]

/-- The per-key content of the aggregated diff: the `add` (respectively
`del`) list at each key is the in-order concatenation of the contexts'
contributions. -/
theorem getCellMutation_addsAt_delsAt (tableId : String) (fm : ITinyFieldMapByTableId)
    (contexts : List ICellContext) (m : ICellMutation)
    (h : getCellMutation tableId fm contexts = Except.ok m) (a b c : String) :
    addsAt m a b c = contexts.flatMap (fun ctx => ctxAdds tableId fm ctx a b c) ∧
    delsAt m a b c = contexts.flatMap (fun ctx => ctxDels tableId fm ctx a b c) := by
  have := foldE_addsAt_delsAt tableId fm contexts [] m h a b c
  simpa [addsAt, delsAt, aget3, aget] using this

/-! ## Key-presence invariant

A key exists in the aggregated diff exactly when something was pushed at it:
`prepare` is only ever called immediately before a push, and pushes only
append. -/

/-- Every key present in the diff carries a non-empty `add` or `del` list. -/
def MutInv (m : ICellMutation) : Prop :=
  ∀ a b c, (aget3 m a b c).isSome ↔ (addsAt m a b c ≠ [] ∨ delsAt m a b c ≠ [])

theorem mutInv_nil : MutInv [] := by
  intro a b c
  simp [aget3, aget, addsAt, delsAt]

theorem mutInv_prep (acc : ICellMutation) (ft t sf : String) (g : AddDel → AddDel)
    (hg : ∀ ad, (g ad).add ≠ [] ∨ (g ad).del ≠ [])
    (h : MutInv acc) : MutInv (prep acc ft t sf g) := by
  intro a b c
  by_cases hk : a = ft ∧ b = t ∧ c = sf
  · unfold addsAt delsAt
    rw [aget3_prep, if_pos hk]
    simpa using hg ((aget3 acc ft t sf).getD ⟨[], []⟩)
  · unfold addsAt delsAt
    rw [aget3_prep, if_neg hk]
    exact h a b c

theorem mutInv_foldl_prep (ft sf : String) (g : AddDel → AddDel)
    (hg : ∀ ad, (g ad).add ≠ [] ∨ (g ad).del ≠ [])
    (L : List String) (acc : ICellMutation) (h : MutInv acc) :
    MutInv (L.foldl (fun x t => prep x ft t sf g) acc) := by
  induction L generalizing acc with
  | nil => exact h
  | cons t L ih => exact ih (prep acc ft t sf g) (mutInv_prep acc ft t sf g hg h)

theorem mutInv_aupd_id (m : ICellMutation) (ft : String) (h : MutInv m) :
    MutInv (aupd m ft [] (fun tm => tm)) := by
  intro a b c
  unfold addsAt delsAt
  rw [aget3_aupd_id]
  exact h a b c

theorem mutInv_ctxStep (tableId : String) (fm : ITinyFieldMapByTableId)
    (acc acc2 : ICellMutation) (ctx : ICellContext)
    (hs : ctxStep tableId fm acc ctx = Except.ok acc2) (h : MutInv acc) : MutInv acc2 := by
  unfold ctxStep at hs
  cases hf : aget2 fm tableId ctx.fieldId with
  | none => rw [hf] at hs; exact absurd hs (by simp)
  | some field =>
    rw [hf] at hs
    simp only [Except.ok.injEq] at hs
    subst hs
    apply mutInv_foldl_prep _ _ _ (fun ad => Or.inr (by simp [pushDel]))
    apply mutInv_foldl_prep _ _ _ (fun ad => Or.inl (by simp [pushAdd]))
    exact mutInv_aupd_id acc _ h

theorem mutInv_getCellMutation (tableId : String) (fm : ITinyFieldMapByTableId)
    (contexts : List ICellContext) (m : ICellMutation)
    (h : getCellMutation tableId fm contexts = Except.ok m) : MutInv m := by
  unfold getCellMutation at h
  suffices hgen : ∀ (l : List ICellContext) (acc : ICellMutation), MutInv acc →
      foldE (ctxStep tableId fm) acc l = Except.ok m → MutInv m by
    exact hgen contexts [] mutInv_nil h
  intro l
  induction l with
  | nil =>
    intro acc hacc hfold
    unfold foldE at hfold
    simp only [Except.ok.injEq] at hfold
    subst hfold
    exact hacc
  | cons ctx rest ih =>
    intro acc hacc hfold
    unfold foldE at hfold
    cases hs : ctxStep tableId fm acc ctx with
    | error e => rw [hs] at hfold; exact absurd hfold (by simp)
    | ok acc2 =>
      rw [hs] at hfold
      exact ih acc2 (mutInv_ctxStep tableId fm acc acc2 ctx hs hacc) hfold

/-! ## Per-key synthesizer lemmas -/

theorem cellChangeForKey_eq (rm : IRecordMapByTableId) (fm : ITinyFieldMapByTableId)
    (t r f : String) (ad : AddDel) (trec : List (String × IRecordFields))
    (recd : IRecordFields) (field : ITinyLinkField)
    (h1 : aget rm t = some trec) (h2 : aget trec r = some recd)
    (h3 : aget2 fm t f = some field) :
    cellChangeForKey rm fm t r f ad = synthOne t r f field ((aget recd f).join) ad := by
  simp only [cellChangeForKey, h1, h2, h3]

/-- The list the spec's words start from: "the current list (the empty list
when the current value is absent)". -/
def currentList : Option CellValue → List String
  | some (CellValue.many ids) => ids
  | _ => []

/-- The OneToMany result as the spec describes it: remove every id in
`toUnlink` from the current list, then append every id in `toLink`, and emit
the resulting list, or absent when it is empty. -/
def specOneManyNewValue (current : List String) (ad : AddDel) : Option CellValue :=
  if (current.filter (fun item => !(ad.del.contains item)) ++ ad.add).isEmpty then none
  else some (CellValue.many (current.filter (fun item => !(ad.del.contains item)) ++ ad.add))

theorem synthOne_notManyOne_eq (t r f : String) (field : ITinyLinkField)
    (oldV : Option CellValue) (ad : AddDel)
    (hrel : ¬ field.options.relationship = Relationship.manyOne)
    (hshape : oldV = none ∨ ∃ base, oldV = some (CellValue.many base)) :
    synthOne t r f field oldV ad =
      Except.ok { tableId := t, recordId := r, fieldId := f, oldValue := oldV,
                  newValue := specOneManyNewValue (currentList oldV) ad } := by
  rcases hshape with h | ⟨base, h⟩ <;> subst h <;>
    simp [synthOne, hrel, jsAsList, currentList, specOneManyNewValue]

theorem synthOne_notManyOne_single (t r f : String) (field : ITinyLinkField)
    (i : String) (ad : AddDel)
    (hrel : ¬ field.options.relationship = Relationship.manyOne) :
    synthOne t r f field (some (CellValue.one i)) ad = Except.error "TypeError" := by
  simp [synthOne, hrel, jsAsList]

theorem synthOne_oneMany_eq (t r f : String) (field : ITinyLinkField)
    (oldV : Option CellValue) (ad : AddDel)
    (h5 : field.options.relationship = Relationship.oneMany)
    (hshape : oldV = none ∨ ∃ base, oldV = some (CellValue.many base)) :
    synthOne t r f field oldV ad =
      Except.ok { tableId := t, recordId := r, fieldId := f, oldValue := oldV,
                  newValue := specOneManyNewValue (currentList oldV) ad } :=
  synthOne_notManyOne_eq t r f field oldV ad (by rw [h5]; simp) hshape

theorem synthOne_manyOne_error_iff (t r f : String) (field : ITinyLinkField)
    (oldV : Option CellValue) (ad : AddDel)
    (h5 : field.options.relationship = Relationship.manyOne) :
    ((∃ e, synthOne t r f field oldV ad = Except.error e) ↔
      ((∃ l, oldV = some (CellValue.many l)) ∨
       (1 < ad.add.length ∨ 1 < ad.del.length) ∨
       (ad.del ≠ [] ∧ ad.del.head? ≠ singleId oldV))) ∧
    (∀ e, synthOne t r f field oldV ad = Except.error e →
      e = "ManyOne relationship\x27s old value should be a single record" ∨
      e = "ManyOne relationship should not have multiple records" ∨
      e = "ManyOne relationship\x27s old value should be equal to delete value") := by
  unfold synthOne
  rw [if_pos h5]
  match oldV with
  | some (CellValue.many l) => simp
  | none =>
    by_cases hb : 1 < ad.add.length ∨ 1 < ad.del.length
    · simp [hb]
    · by_cases hc : ad.del ≠ [] ∧ ad.del.head? ≠ singleId (none : Option CellValue)
      · simp [hb, hc]
      · simp [hb, hc]
  | some (CellValue.one j) =>
    by_cases hb : 1 < ad.add.length ∨ 1 < ad.del.length
    · simp [hb]
    · by_cases hc : ad.del ≠ [] ∧ ad.del.head? ≠ singleId (some (CellValue.one j))
      · simp [hb, hc]
      · simp [hb, hc]

theorem synthOne_manyOne_ok (t r f : String) (field : ITinyLinkField)
    (oldV : Option CellValue) (ad : AddDel)
    (h5 : field.options.relationship = Relationship.manyOne)
    (hshape : oldV = none ∨ ∃ j, oldV = some (CellValue.one j))
    (hlen : ¬ (1 < ad.add.length ∨ 1 < ad.del.length))
    (hdel : ¬ (ad.del ≠ [] ∧ ad.del.head? ≠ singleId oldV)) :
    synthOne t r f field oldV ad =
      Except.ok { tableId := t, recordId := r, fieldId := f, oldValue := oldV,
                  newValue := jsTruthyHead ad.add } := by
  unfold synthOne
  rw [if_pos h5]
  rcases hshape with h | ⟨j, h⟩ <;> subst h <;> simp [hlen, hdel]

/-! ## Concrete fixtures (used by witnesses and counterexamples) -/

/-- A ManyOne link field on table `tblA` pointing at `tblB`, mirrored by
`fldS`. -/
def fxFieldA : ITinyLinkField :=
  ⟨"fldA", "tblA", "link", "colA", ⟨Relationship.manyOne, "tblB", "fldS", "fkB"⟩⟩

/-- The OneMany mirror of `fxFieldA` on table `tblB`. -/
def fxFieldS : ITinyLinkField :=
  ⟨"fldS", "tblB", "link", "colS", ⟨Relationship.oneMany, "tblA", "fldA", "fkB"⟩⟩

/-- Field map for the `fxFieldA`/`fxFieldS` mirror pair. -/
def fxFieldMap : ITinyFieldMapByTableId :=
  [("tblA", [("fldA", fxFieldA)]), ("tblB", [("fldS", fxFieldS)])]

/-- A variant in which the field `fldS` on `tblB` is itself the ManyOne side. -/
def fxFieldSM : ITinyLinkField :=
  ⟨"fldS", "tblB", "link", "colS", ⟨Relationship.manyOne, "tblA", "fldA", "fkA"⟩⟩

/-- Field map exposing the ManyOne-side `fldS`. -/
def fxFieldMapM : ITinyFieldMapByTableId := [("tblB", [("fldS", fxFieldSM)])]

/-- A loaded record whose `fldS` currently stores the single reference
`recOld`. -/
def fxRecdOld : IRecordFields := [("fldS", some (CellValue.one "recOld"))]

/-- Loaded state of table `tblB`: record `recB1` with `fxRecdOld`. -/
def fxTrecOld : List (String × IRecordFields) := [("recB1", fxRecdOld)]

/-- Record map for the single-reference current state. -/
def fxRecOld : IRecordMapByTableId := [("tblB", fxTrecOld)]

/-- A loaded record whose `fldS` currently stores the list `[recA1]`. -/
def fxRecdList : IRecordFields := [("fldS", some (CellValue.many ["recA1"]))]

/-- Loaded state of table `tblB`: record `recB1` with `fxRecdList`. -/
def fxTrecList : List (String × IRecordFields) := [("recB1", fxRecdList)]

/-- Record map for the list-valued current state. -/
def fxRecList : IRecordMapByTableId := [("tblB", fxTrecList)]

/-! ## Claim C1 -/

/-- C1: for a mutation key whose symmetric field is ManyOne (and whose table,
record and field lookups succeed), the Change Synthesizer fails — emitting no
change for the key — exactly when the loaded current value is a list, or the
`add`/`del` list has more than one entry, or `del` is non-empty with its
entry different from the current value's id; and every such failure is one of
the three invariant-violation errors. -/
theorem claim1_manyOne_invariant_errors
    (rm : IRecordMapByTableId) (fm : ITinyFieldMapByTableId) (t r f : String) (ad : AddDel)
    (trec : List (String × IRecordFields)) (recd : IRecordFields) (field : ITinyLinkField)
    (h1 : aget rm t = some trec) (h2 : aget trec r = some recd)
    (h3 : aget2 fm t f = some field)
    (h5 : field.options.relationship = Relationship.manyOne) :
    ((∃ e, cellChangeForKey rm fm t r f ad = Except.error e) ↔
      ((∃ l, (aget recd f).join = some (CellValue.many l)) ∨
       (1 < ad.add.length ∨ 1 < ad.del.length) ∨
       (ad.del ≠ [] ∧ ad.del.head? ≠ singleId ((aget recd f).join)))) ∧
    (∀ e, cellChangeForKey rm fm t r f ad = Except.error e →
      e = "ManyOne relationship\x27s old value should be a single record" ∨
      e = "ManyOne relationship should not have multiple records" ∨
      e = "ManyOne relationship\x27s old value should be equal to delete value") := by
  rw [cellChangeForKey_eq rm fm t r f ad trec recd field h1 h2 h3]
  exact synthOne_manyOne_error_iff t r f field ((aget recd f).join) ad h5

/-- Witness for C1 at a concrete stale unlink (`del = [recB2]`, stored value
`recOld`). -/
theorem claim1_witness :
    (aget fxRecOld "tblB" = some fxTrecOld) ∧
    (aget fxTrecOld "recB1" = some fxRecdOld) ∧
    (aget2 fxFieldMapM "tblB" "fldS" = some fxFieldSM) ∧
    (fxFieldSM.options.relationship = Relationship.manyOne) ∧
    (((∃ e, cellChangeForKey fxRecOld fxFieldMapM "tblB" "recB1" "fldS" ⟨[], ["recB2"]⟩ =
        Except.error e) ↔
      ((∃ l, (aget fxRecdOld "fldS").join = some (CellValue.many l)) ∨
       (1 < (AddDel.mk [] ["recB2"]).add.length ∨ 1 < (AddDel.mk [] ["recB2"]).del.length) ∨
       ((AddDel.mk [] ["recB2"]).del ≠ [] ∧
        (AddDel.mk [] ["recB2"]).del.head? ≠ singleId ((aget fxRecdOld "fldS").join)))) ∧
     (∀ e, cellChangeForKey fxRecOld fxFieldMapM "tblB" "recB1" "fldS" ⟨[], ["recB2"]⟩ =
        Except.error e →
      e = "ManyOne relationship\x27s old value should be a single record" ∨
      e = "ManyOne relationship should not have multiple records" ∨
      e = "ManyOne relationship\x27s old value should be equal to delete value")) :=
  ⟨rfl, rfl, rfl, rfl,
   claim1_manyOne_invariant_errors fxRecOld fxFieldMapM "tblB" "recB1" "fldS"
     ⟨[], ["recB2"]⟩ fxTrecOld fxRecdOld fxFieldSM rfl rfl rfl rfl⟩

/-! ## Claim C2 -/

/-- C2: for a mutation key whose symmetric field is OneMany (lookups
succeeding, current value absent or a list), the synthesizer emits exactly
one change whose new value is the current list with every `del` id removed
and every `add` id appended, or absent when that list is empty. -/
theorem claim2_oneMany_newValue
    (rm : IRecordMapByTableId) (fm : ITinyFieldMapByTableId) (t r f : String) (ad : AddDel)
    (trec : List (String × IRecordFields)) (recd : IRecordFields) (field : ITinyLinkField)
    (h1 : aget rm t = some trec) (h2 : aget trec r = some recd)
    (h3 : aget2 fm t f = some field)
    (h5 : field.options.relationship = Relationship.oneMany)
    (hshape : (aget recd f).join = none ∨
      ∃ base, (aget recd f).join = some (CellValue.many base)) :
    cellChangeForKey rm fm t r f ad =
      Except.ok { tableId := t, recordId := r, fieldId := f,
                  oldValue := (aget recd f).join,
                  newValue := specOneManyNewValue (currentList ((aget recd f).join)) ad } := by
  rw [cellChangeForKey_eq rm fm t r f ad trec recd field h1 h2 h3]
  exact synthOne_oneMany_eq t r f field ((aget recd f).join) ad h5 hshape

/-- Witness for C2: unlink `recA1`, link `recA2` onto current list `[recA1]`. -/
theorem claim2_witness :
    (aget fxRecList "tblB" = some fxTrecList) ∧
    (aget fxTrecList "recB1" = some fxRecdList) ∧
    (aget2 fxFieldMap "tblB" "fldS" = some fxFieldS) ∧
    (fxFieldS.options.relationship = Relationship.oneMany) ∧
    ((aget fxRecdList "fldS").join = none ∨
      ∃ base, (aget fxRecdList "fldS").join = some (CellValue.many base)) ∧
    (cellChangeForKey fxRecList fxFieldMap "tblB" "recB1" "fldS" ⟨["recA2"], ["recA1"]⟩ =
      Except.ok { tableId := "tblB", recordId := "recB1", fieldId := "fldS",
                  oldValue := (aget fxRecdList "fldS").join,
                  newValue := specOneManyNewValue (currentList ((aget fxRecdList "fldS").join))
                    ⟨["recA2"], ["recA1"]⟩ }) :=
  ⟨rfl, rfl, rfl, rfl, Or.inr ⟨["recA1"], rfl⟩,
   claim2_oneMany_newValue fxRecList fxFieldMap "tblB" "recB1" "fldS" ⟨["recA2"], ["recA1"]⟩
     fxTrecList fxRecdList fxFieldS rfl rfl rfl rfl (Or.inr ⟨["recA1"], rfl⟩)⟩

/-! ## Claim C7 -/

/-- C7: a mutation key naming a foreign record that the loader did not find
(`recB9` absent from the loaded `tblB` map) makes the Change Synthesizer
throw a `TypeError` (reading `[fieldId]` of `undefined`), instead of
treating the missing current value as absent and emitting a change. -/
theorem claim7_missing_record_typeerror :
    getCellChangeByMutation [("tblB", [("recB9", [("fldS", ⟨["recA1"], []⟩)])])]
      [("tblB", [])] fxFieldMap = Except.error "TypeError" := rfl

/-! ## Claim C8 -/

/-- C8 counterexample: at a key whose `add` and `del` both contain `recA1`,
the emitted OneMany list `[recA1]` contains an id present in `del` (and a
duplicate of the removed current entry), refuting the claim as universally
stated over mutation keys. -/
theorem claim8_counterexample :
    cellChangeForKey fxRecList fxFieldMap "tblB" "recB1" "fldS" ⟨["recA1"], ["recA1"]⟩ =
      Except.ok { tableId := "tblB", recordId := "recB1", fieldId := "fldS",
                  oldValue := some (CellValue.many ["recA1"]),
                  newValue := some (CellValue.many ["recA1"]) } ∧
    "recA1" ∈ (AddDel.mk ["recA1"] ["recA1"]).del := by
  exact ⟨rfl, by simp⟩

/-- C8 amended: provided the key's `add` list is duplicate-free and shares no
id with `del` nor with the current list, the emitted OneMany list contains no
id from `del` and no duplicates beyond those already in the current list. -/
theorem claim8_amended_no_unlinked_no_dups
    (rm : IRecordMapByTableId) (fm : ITinyFieldMapByTableId) (t r f : String) (ad : AddDel)
    (trec : List (String × IRecordFields)) (recd : IRecordFields) (field : ITinyLinkField)
    (h1 : aget rm t = some trec) (h2 : aget trec r = some recd)
    (h3 : aget2 fm t f = some field)
    (h5 : field.options.relationship = Relationship.oneMany)
    (hshape : (aget recd f).join = none ∨
      ∃ base, (aget recd f).join = some (CellValue.many base))
    (hnodup : ad.add.Nodup)
    (hdisj : ∀ i ∈ ad.add, i ∉ ad.del)
    (hfresh : ∀ i ∈ ad.add, i ∉ currentList ((aget recd f).join)) :
    ∀ ch, cellChangeForKey rm fm t r f ad = Except.ok ch →
      ∀ l, ch.newValue = some (CellValue.many l) →
        (∀ i ∈ l, i ∉ ad.del) ∧
        (∀ i, l.count i ≤ max ((currentList ((aget recd f).join)).count i) 1) := by
  intro ch hch l hl
  rw [cellChangeForKey_eq rm fm t r f ad trec recd field h1 h2 h3,
    synthOne_oneMany_eq t r f field ((aget recd f).join) ad h5 hshape] at hch
  simp only [Except.ok.injEq] at hch
  subst hch
  simp only [specOneManyNewValue] at hl
  by_cases hemp :
      ((currentList ((aget recd f).join)).filter (fun item => !(ad.del.contains item)) ++
        ad.add).isEmpty
  · rw [if_pos hemp] at hl
    exact absurd hl (by simp)
  · rw [if_neg hemp] at hl
    simp only [Option.some.injEq, CellValue.many.injEq] at hl
    subst hl
    constructor
    · intro i hi
      rcases List.mem_append.mp hi with hif | hia
      · intro hmem
        have hp := (List.mem_filter.mp hif).2
        have hc : ad.del.contains i = true := List.elem_iff.mpr hmem
        rw [hc] at hp
        exact absurd hp (by simp)
      · exact hdisj i hia
    · intro i
      rw [List.count_append]
      have hfil : ((currentList ((aget recd f).join)).filter
          (fun item => !(ad.del.contains item))).count i ≤
          (currentList ((aget recd f).join)).count i :=
        (List.filter_sublist _).count_le i
      by_cases hia : i ∈ ad.add
      · have hz : ((currentList ((aget recd f).join)).filter
            (fun item => !(ad.del.contains item))).count i = 0 := by
          rw [List.count_eq_zero]
          intro hmem
          exact hfresh i hia ((List.mem_filter.mp hmem).1)
        have ha1 : ad.add.count i ≤ 1 := List.nodup_iff_count_le_one.mp hnodup i
        calc ((currentList ((aget recd f).join)).filter
              (fun item => !(ad.del.contains item))).count i + ad.add.count i
            ≤ 0 + 1 := by rw [hz]; exact Nat.add_le_add_left ha1 0
          _ ≤ max ((currentList ((aget recd f).join)).count i) 1 := by
              simp
      · have hz : ad.add.count i = 0 := List.count_eq_zero.mpr hia
        rw [hz]
        exact Nat.le_trans (by simpa using hfil)
          (Nat.le_max_left ((currentList ((aget recd f).join)).count i) 1)

/-- Witness for the amended C8: `add = [recA2]`, `del = [recA1]`, current
list `[recA1]`. -/
theorem claim8_witness :
    (aget fxRecList "tblB" = some fxTrecList) ∧
    (aget fxTrecList "recB1" = some fxRecdList) ∧
    (aget2 fxFieldMap "tblB" "fldS" = some fxFieldS) ∧
    (fxFieldS.options.relationship = Relationship.oneMany) ∧
    ((aget fxRecdList "fldS").join = none ∨
      ∃ base, (aget fxRecdList "fldS").join = some (CellValue.many base)) ∧
    ((AddDel.mk ["recA2"] ["recA1"]).add.Nodup) ∧
    (∀ i ∈ (AddDel.mk ["recA2"] ["recA1"]).add, i ∉ (AddDel.mk ["recA2"] ["recA1"]).del) ∧
    (∀ i ∈ (AddDel.mk ["recA2"] ["recA1"]).add,
      i ∉ currentList ((aget fxRecdList "fldS").join)) ∧
    (∀ ch, cellChangeForKey fxRecList fxFieldMap "tblB" "recB1" "fldS"
        ⟨["recA2"], ["recA1"]⟩ = Except.ok ch →
      ∀ l, ch.newValue = some (CellValue.many l) →
        (∀ i ∈ l, i ∉ (AddDel.mk ["recA2"] ["recA1"]).del) ∧
        (∀ i, l.count i ≤ max ((currentList ((aget fxRecdList "fldS").join)).count i) 1)) :=
  ⟨rfl, rfl, rfl, rfl, Or.inr ⟨["recA1"], rfl⟩, by decide, by decide, by decide,
   claim8_amended_no_unlinked_no_dups fxRecList fxFieldMap "tblB" "recB1" "fldS"
     ⟨["recA2"], ["recA1"]⟩ fxTrecList fxRecdList fxFieldS rfl rfl rfl rfl
     (Or.inr ⟨["recA1"], rfl⟩) (by decide) (by decide) (by decide)⟩

/-! ## Claim C10 -/

/-- C10 counterexample: with `toLink = [""]` (one entry) and an existing
different stored reference, the emitted change's `newValue` is absent — the
empty string is falsy in `add[0] ? { id: add[0] } : undefined` — not the new
single reference `{id := ""}`. -/
theorem claim10_counterexample :
    cellChangeForKey fxRecOld fxFieldMapM "tblB" "recB1" "fldS" ⟨[""], []⟩ =
      Except.ok { tableId := "tblB", recordId := "recB1", fieldId := "fldS",
                  oldValue := some (CellValue.one "recOld"), newValue := none } ∧
    (none : Option CellValue) ≠ some (CellValue.one "") := by
  exact ⟨rfl, by simp⟩

/-- C10 amended: with exactly one *non-empty* `toLink` entry and empty
`toUnlink`, the ManyOne synthesizer silently replaces an existing single
reference by the new one, raising no error and requiring no matching unlink. -/
theorem claim10_amended_silent_replacement
    (rm : IRecordMapByTableId) (fm : ITinyFieldMapByTableId) (t r f : String) (i j : String)
    (trec : List (String × IRecordFields)) (recd : IRecordFields) (field : ITinyLinkField)
    (h1 : aget rm t = some trec) (h2 : aget trec r = some recd)
    (h3 : aget2 fm t f = some field)
    (h5 : field.options.relationship = Relationship.manyOne)
    (hi : i ≠ "")
    (hold : (aget recd f).join = some (CellValue.one j)) :
    cellChangeForKey rm fm t r f ⟨[i], []⟩ =
      Except.ok { tableId := t, recordId := r, fieldId := f,
                  oldValue := some (CellValue.one j),
                  newValue := some (CellValue.one i) } := by
  rw [cellChangeForKey_eq rm fm t r f ⟨[i], []⟩ trec recd field h1 h2 h3, hold]
  rw [synthOne_manyOne_ok t r f field (some (CellValue.one j)) ⟨[i], []⟩ h5
    (Or.inr ⟨j, rfl⟩) (by simp) (by simp)]
  simp [jsTruthyHead, hi]

/-- Witness for the amended C10: replace `recOld` by `recA9` with no unlink. -/
theorem claim10_witness :
    (aget fxRecOld "tblB" = some fxTrecOld) ∧
    (aget fxTrecOld "recB1" = some fxRecdOld) ∧
    (aget2 fxFieldMapM "tblB" "fldS" = some fxFieldSM) ∧
    (fxFieldSM.options.relationship = Relationship.manyOne) ∧
    ("recA9" ≠ "") ∧
    ((aget fxRecdOld "fldS").join = some (CellValue.one "recOld")) ∧
    (cellChangeForKey fxRecOld fxFieldMapM "tblB" "recB1" "fldS" ⟨["recA9"], []⟩ =
      Except.ok { tableId := "tblB", recordId := "recB1", fieldId := "fldS",
                  oldValue := some (CellValue.one "recOld"),
                  newValue := some (CellValue.one "recA9") }) :=
  ⟨rfl, rfl, rfl, rfl, by decide, rfl,
   claim10_amended_silent_replacement fxRecOld fxFieldMapM "tblB" "recB1" "fldS"
     "recA9" "recOld" fxTrecOld fxRecdOld fxFieldSM rfl rfl rfl rfl (by decide) rfl⟩

/-! ## Claim C3 -/

/-- A context linking `recB1` from source record `recA1`. -/
def fxCtxLink : ICellContext := ⟨"recA1", "fldA", some (CellValue.many ["recB1"]), none⟩

/-- A context unlinking `recB1` from the same source record `recA1`. -/
def fxCtxUnlink : ICellContext := ⟨"recA1", "fldA", none, some (CellValue.many ["recB1"])⟩

/-- A context linking `recB1` from source record `recA2`. -/
def fxCtxLink2 : ICellContext := ⟨"recA2", "fldA", some (CellValue.many ["recB1"]), none⟩

/-- C3 counterexample: a batch holding an unlink and a link context for the
same source record `recA1` produces a key whose `add` and `del` lists both
contain `recA1`. -/
theorem claim3_counterexample :
    getCellMutation "tblA" fxFieldMap [fxCtxUnlink, fxCtxLink] =
      Except.ok [("tblB", [("recB1", [("fldS", ⟨["recA1"], ["recA1"]⟩)])])] ∧
    "recA1" ∈ addsAt [("tblB", [("recB1", [("fldS", ⟨["recA1"], ["recA1"]⟩)])])]
      "tblB" "recB1" "fldS" ∧
    "recA1" ∈ delsAt [("tblB", [("recB1", [("fldS", ⟨["recA1"], ["recA1"]⟩)])])]
      "tblB" "recB1" "fldS" := by
  refine ⟨rfl, ?_, ?_⟩ <;> decide

theorem mem_ctxAdds (tableId : String) (fm : ITinyFieldMapByTableId) (ctx : ICellContext)
    (a b c r : String) (h : r ∈ ctxAdds tableId fm ctx a b c) :
    r = ctx.id ∧ b ∈ difference (polishValue ctx.newValue) (polishValue ctx.oldValue) := by
  unfold ctxAdds at h
  cases hf : aget2 fm tableId ctx.fieldId with
  | none => rw [hf] at h; simp at h
  | some field =>
    simp only [hf] at h
    by_cases hc : a = field.options.foreignTableId ∧ c = field.options.symmetricFieldId
    · rw [if_pos hc] at h
      obtain ⟨hn, he⟩ := List.mem_replicate.mp h
      refine ⟨he, ?_⟩
      exact List.count_pos_iff.mp (Nat.pos_of_ne_zero hn)
    · rw [if_neg hc] at h
      simp at h

theorem mem_ctxDels (tableId : String) (fm : ITinyFieldMapByTableId) (ctx : ICellContext)
    (a b c r : String) (h : r ∈ ctxDels tableId fm ctx a b c) :
    r = ctx.id ∧ b ∈ difference (polishValue ctx.oldValue) (polishValue ctx.newValue) := by
  unfold ctxDels at h
  cases hf : aget2 fm tableId ctx.fieldId with
  | none => rw [hf] at h; simp at h
  | some field =>
    simp only [hf] at h
    by_cases hc : a = field.options.foreignTableId ∧ c = field.options.symmetricFieldId
    · rw [if_pos hc] at h
      obtain ⟨hn, he⟩ := List.mem_replicate.mp h
      refine ⟨he, ?_⟩
      exact List.count_pos_iff.mp (Nat.pos_of_ne_zero hn)
    · rw [if_neg hc] at h
      simp at h

theorem difference_not_mem_swap (xs ys : List String) (b : String)
    (h1 : b ∈ difference xs ys) (h2 : b ∈ difference ys xs) : False := by
  have m1 := List.mem_filter.mp h1
  have m2 := List.mem_filter.mp h2
  have hc : ys.contains b = true := List.elem_iff.mpr m2.1
  have := m1.2
  rw [hc] at this
  exact absurd this (by simp)

/-- C3 amended: provided no two contexts of the batch share a source record
id, no source record id appears in both the `add` and the `del` list of any
key of the aggregated diff (each single context's contributions come from one
old/new set-difference, which is mutually exclusive). -/
theorem claim3_amended_disjoint
    (tableId : String) (fm : ITinyFieldMapByTableId) (contexts : List ICellContext)
    (m : ICellMutation)
    (h : getCellMutation tableId fm contexts = Except.ok m)
    (hnodup : (contexts.map ICellContext.id).Nodup) :
    ∀ a b c r, r ∈ addsAt m a b c → r ∈ delsAt m a b c → False := by
  intro a b c r hra hrd
  obtain ⟨hadds, hdels⟩ := getCellMutation_addsAt_delsAt tableId fm contexts m h a b c
  rw [hadds] at hra
  rw [hdels] at hrd
  obtain ⟨ctx1, hc1, hin1⟩ := List.mem_flatMap.mp hra
  obtain ⟨ctx2, hc2, hin2⟩ := List.mem_flatMap.mp hrd
  obtain ⟨hid1, hb1⟩ := mem_ctxAdds tableId fm ctx1 a b c r hin1
  obtain ⟨hid2, hb2⟩ := mem_ctxDels tableId fm ctx2 a b c r hin2
  have heq : ctx1 = ctx2 :=
    List.inj_on_of_nodup_map hnodup hc1 hc2 (by rw [← hid1, ← hid2])
  subst heq
  exact difference_not_mem_swap (polishValue ctx1.newValue) (polishValue ctx1.oldValue)
    b hb1 hb2

/-- Witness for the amended C3: two contexts with distinct source records
linking the same foreign record. -/
theorem claim3_witness :
    (getCellMutation "tblA" fxFieldMap [fxCtxLink, fxCtxLink2] =
      Except.ok [("tblB", [("recB1", [("fldS", ⟨["recA1", "recA2"], []⟩)])])]) ∧
    (([fxCtxLink, fxCtxLink2].map ICellContext.id).Nodup) ∧
    (∀ a b c r,
      r ∈ addsAt [("tblB", [("recB1", [("fldS", ⟨["recA1", "recA2"], []⟩)])])] a b c →
      r ∈ delsAt [("tblB", [("recB1", [("fldS", ⟨["recA1", "recA2"], []⟩)])])] a b c →
      False) :=
  ⟨rfl, by decide,
   claim3_amended_disjoint "tblA" fxFieldMap [fxCtxLink, fxCtxLink2]
     [("tblB", [("recB1", [("fldS", ⟨["recA1", "recA2"], []⟩)])])] rfl (by decide)⟩

/-! ## Claim C9 -/

/-- Loaded state of `tblB` in which record `recB1` exists with no stored
value. -/
def fxRecB1Empty : IRecordMapByTableId := [("tblB", [("recB1", [])])]

/-- C9 counterexample: the same two link edits in the two possible orders
produce, for the same foreign record `recB1`, derived changes whose OneMany
list values differ (in element order), so the derived changes are not the
same under reordering of the contexts. -/
theorem claim9_counterexample :
    getCellMutation "tblA" fxFieldMap [fxCtxLink, fxCtxLink2] =
      Except.ok [("tblB", [("recB1", [("fldS", ⟨["recA1", "recA2"], []⟩)])])] ∧
    getCellMutation "tblA" fxFieldMap [fxCtxLink2, fxCtxLink] =
      Except.ok [("tblB", [("recB1", [("fldS", ⟨["recA2", "recA1"], []⟩)])])] ∧
    getCellChangeByMutation [("tblB", [("recB1", [("fldS", ⟨["recA1", "recA2"], []⟩)])])]
      fxRecB1Empty fxFieldMap =
      Except.ok [{ tableId := "tblB", recordId := "recB1", fieldId := "fldS",
                   oldValue := none,
                   newValue := some (CellValue.many ["recA1", "recA2"]) }] ∧
    getCellChangeByMutation [("tblB", [("recB1", [("fldS", ⟨["recA2", "recA1"], []⟩)])])]
      fxRecB1Empty fxFieldMap =
      Except.ok [{ tableId := "tblB", recordId := "recB1", fieldId := "fldS",
                   oldValue := none,
                   newValue := some (CellValue.many ["recA2", "recA1"]) }] ∧
    some (CellValue.many ["recA1", "recA2"]) ≠ some (CellValue.many ["recA2", "recA1"]) :=
  ⟨rfl, rfl, rfl, rfl, by decide⟩

theorem perm_eq_of_length_le_one {α : Type} {l1 l2 : List α} (h : l1.Perm l2)
    (hlen : l1.length ≤ 1) : l1 = l2 := by
  match l1, hlen with
  | [], _ => rw [h.symm.eq_nil]
  | [x], _ => rw [← List.singleton_perm.mp h]

theorem perm_ne_nil_iff {α : Type} {l1 l2 : List α} (h : l1.Perm l2) :
    l1 ≠ [] ↔ l2 ≠ [] := by
  constructor
  · intro hne hc
    subst hc
    exact hne h.eq_nil
  · intro hne hc
    subst hc
    exact hne h.symm.eq_nil

theorem contains_eq_of_perm (l1 l2 : List String) (h : l1.Perm l2) (x : String) :
    l1.contains x = l2.contains x := by
  cases hb1 : l1.contains x with
  | true =>
    exact (List.elem_iff.mpr (h.mem_iff.mp (List.elem_iff.mp hb1))).symm
  | false =>
    cases hb2 : l2.contains x with
    | true =>
      have : l1.contains x = true := List.elem_iff.mpr (h.mem_iff.mpr (List.elem_iff.mp hb2))
      rw [hb1] at this
      exact absurd this (by simp)
    | false => rfl

/-- Equality of derived values up to reordering of list entries. -/
def valuePerm : Option CellValue → Option CellValue → Prop
  | none, none => True
  | some (CellValue.one i), some (CellValue.one j) => i = j
  | some (CellValue.many xs), some (CellValue.many ys) => xs.Perm ys
  | _, _ => False

theorem valuePerm_refl (v : Option CellValue) : valuePerm v v := by
  match v with
  | none => trivial
  | some (CellValue.one i) => rfl
  | some (CellValue.many xs) => exact List.Perm.refl xs

theorem specOneManyNewValue_perm (cur : List String) (ad1 ad2 : AddDel)
    (hA : ad1.add.Perm ad2.add) (hD : ad1.del.Perm ad2.del) :
    valuePerm (specOneManyNewValue cur ad1) (specOneManyNewValue cur ad2) := by
  unfold specOneManyNewValue
  have hfil : cur.filter (fun item => !(ad1.del.contains item)) =
      cur.filter (fun item => !(ad2.del.contains item)) :=
    List.filter_congr (fun x _ => by rw [contains_eq_of_perm ad1.del ad2.del hD x])
  have hLperm : (cur.filter (fun item => !(ad1.del.contains item)) ++ ad1.add).Perm
      (cur.filter (fun item => !(ad2.del.contains item)) ++ ad2.add) := by
    rw [← hfil]
    exact hA.append_left _
  by_cases he : (cur.filter (fun item => !(ad1.del.contains item)) ++ ad1.add).isEmpty
  · have he2 : (cur.filter (fun item => !(ad2.del.contains item)) ++ ad2.add).isEmpty :=
      List.isEmpty_iff.mpr ((List.isEmpty_iff.mp he ▸ hLperm).symm.eq_nil)
    rw [if_pos he, if_pos he2]
    trivial
  · have he2 : ¬ (cur.filter (fun item => !(ad2.del.contains item)) ++ ad2.add).isEmpty := by
      intro hc
      exact he (List.isEmpty_iff.mpr (hLperm.trans
        (List.isEmpty_iff.mp hc ▸ List.Perm.refl _)).eq_nil)
    rw [if_neg he, if_neg he2]
    exact hLperm

theorem synthOne_addDel_perm (t r f : String) (field : ITinyLinkField)
    (oldV : Option CellValue) (ad1 ad2 : AddDel)
    (hA : ad1.add.Perm ad2.add) (hD : ad1.del.Perm ad2.del) :
    ((∃ e, synthOne t r f field oldV ad1 = Except.error e) ↔
      (∃ e, synthOne t r f field oldV ad2 = Except.error e)) ∧
    (∀ ch1 ch2, synthOne t r f field oldV ad1 = Except.ok ch1 →
        synthOne t r f field oldV ad2 = Except.ok ch2 →
      ch1.oldValue = ch2.oldValue ∧ valuePerm ch1.newValue ch2.newValue) := by
  by_cases hrel : field.options.relationship = Relationship.manyOne
  · have hlA := hA.length_eq
    have hlD := hD.length_eq
    unfold synthOne
    rw [if_pos hrel, if_pos hrel]
    match oldV with
    | some (CellValue.many l) =>
      constructor
      · simp
      · intro ch1 ch2 hc1 hc2
        simp at hc1
    | none =>
      by_cases hb : 1 < ad1.add.length ∨ 1 < ad1.del.length
      · have hb2 : 1 < ad2.add.length ∨ 1 < ad2.del.length := by
          rw [← hlA, ← hlD]; exact hb
        constructor
        · simp [hb, hb2]
        · intro ch1 ch2 hc1 hc2
          simp [hb] at hc1
      · push_neg at hb
        rw [← perm_eq_of_length_le_one hA hb.1,
          ← perm_eq_of_length_le_one hD hb.2]
        constructor
        · exact Iff.rfl
        · intro ch1 ch2 hc1 hc2
          rw [hc1] at hc2
          simp only [Except.ok.injEq] at hc2
          subst hc2
          exact ⟨rfl, valuePerm_refl ch1.newValue⟩
    | some (CellValue.one j) =>
      by_cases hb : 1 < ad1.add.length ∨ 1 < ad1.del.length
      · have hb2 : 1 < ad2.add.length ∨ 1 < ad2.del.length := by
          rw [← hlA, ← hlD]; exact hb
        constructor
        · simp [hb, hb2]
        · intro ch1 ch2 hc1 hc2
          simp [hb] at hc1
      · push_neg at hb
        rw [← perm_eq_of_length_le_one hA hb.1,
          ← perm_eq_of_length_le_one hD hb.2]
        constructor
        · exact Iff.rfl
        · intro ch1 ch2 hc1 hc2
          rw [hc1] at hc2
          simp only [Except.ok.injEq] at hc2
          subst hc2
          exact ⟨rfl, valuePerm_refl ch1.newValue⟩
  · match oldV with
    | some (CellValue.one i) =>
      rw [synthOne_notManyOne_single t r f field i ad1 hrel,
        synthOne_notManyOne_single t r f field i ad2 hrel]
      constructor
      · exact Iff.rfl
      · intro ch1 ch2 hc1 hc2
        exact absurd hc1 (by simp)
    | none =>
      rw [synthOne_notManyOne_eq t r f field none ad1 hrel (Or.inl rfl),
        synthOne_notManyOne_eq t r f field none ad2 hrel (Or.inl rfl)]
      constructor
      · constructor
        · rintro ⟨e, he⟩
          exact absurd he (by simp)
        · rintro ⟨e, he⟩
          exact absurd he (by simp)
      · intro ch1 ch2 hc1 hc2
        simp only [Except.ok.injEq] at hc1 hc2
        subst hc1
        subst hc2
        exact ⟨rfl, specOneManyNewValue_perm (currentList none) ad1 ad2 hA hD⟩
    | some (CellValue.many base) =>
      rw [synthOne_notManyOne_eq t r f field (some (CellValue.many base)) ad1 hrel
          (Or.inr ⟨base, rfl⟩),
        synthOne_notManyOne_eq t r f field (some (CellValue.many base)) ad2 hrel
          (Or.inr ⟨base, rfl⟩)]
      constructor
      · constructor
        · rintro ⟨e, he⟩
          exact absurd he (by simp)
        · rintro ⟨e, he⟩
          exact absurd he (by simp)
      · intro ch1 ch2 hc1 hc2
        simp only [Except.ok.injEq] at hc1 hc2
        subst hc1
        subst hc2
        exact ⟨rfl, specOneManyNewValue_perm (currentList (some (CellValue.many base)))
          ad1 ad2 hA hD⟩

theorem cellChangeForKey_table_none (rm : IRecordMapByTableId)
    (fm : ITinyFieldMapByTableId) (t r f : String) (ad : AddDel)
    (h1 : aget rm t = none) :
    cellChangeForKey rm fm t r f ad = Except.error "TypeError" := by
  simp only [cellChangeForKey, h1]

theorem cellChangeForKey_record_none (rm : IRecordMapByTableId)
    (fm : ITinyFieldMapByTableId) (t r f : String) (ad : AddDel)
    (trec : List (String × IRecordFields))
    (h1 : aget rm t = some trec) (h2 : aget trec r = none) :
    cellChangeForKey rm fm t r f ad = Except.error "TypeError" := by
  simp only [cellChangeForKey, h1, h2]

theorem cellChangeForKey_field_none (rm : IRecordMapByTableId)
    (fm : ITinyFieldMapByTableId) (t r f : String) (ad : AddDel)
    (trec : List (String × IRecordFields)) (recd : IRecordFields)
    (h1 : aget rm t = some trec) (h2 : aget trec r = some recd)
    (h3 : aget2 fm t f = none) :
    cellChangeForKey rm fm t r f ad = Except.error "TypeError" := by
  simp only [cellChangeForKey, h1, h2, h3]

theorem cellChangeForKey_addDel_perm (rm : IRecordMapByTableId)
    (fm : ITinyFieldMapByTableId) (a b c : String) (ad1 ad2 : AddDel)
    (hA : ad1.add.Perm ad2.add) (hD : ad1.del.Perm ad2.del) :
    ((∃ e, cellChangeForKey rm fm a b c ad1 = Except.error e) ↔
      (∃ e, cellChangeForKey rm fm a b c ad2 = Except.error e)) ∧
    (∀ ch1 ch2, cellChangeForKey rm fm a b c ad1 = Except.ok ch1 →
        cellChangeForKey rm fm a b c ad2 = Except.ok ch2 →
      ch1.oldValue = ch2.oldValue ∧ valuePerm ch1.newValue ch2.newValue) := by
  cases h1 : aget rm a with
  | none =>
    rw [cellChangeForKey_table_none rm fm a b c ad1 h1,
      cellChangeForKey_table_none rm fm a b c ad2 h1]
    constructor
    · exact Iff.rfl
    · intro ch1 ch2 hc1 hc2
      exact absurd hc1 (by simp)
  | some trec =>
    cases h2 : aget trec b with
    | none =>
      rw [cellChangeForKey_record_none rm fm a b c ad1 trec h1 h2,
        cellChangeForKey_record_none rm fm a b c ad2 trec h1 h2]
      constructor
      · exact Iff.rfl
      · intro ch1 ch2 hc1 hc2
        exact absurd hc1 (by simp)
    | some recd =>
      cases h3 : aget2 fm a c with
      | none =>
        rw [cellChangeForKey_field_none rm fm a b c ad1 trec recd h1 h2 h3,
          cellChangeForKey_field_none rm fm a b c ad2 trec recd h1 h2 h3]
        constructor
        · exact Iff.rfl
        · intro ch1 ch2 hc1 hc2
          exact absurd hc1 (by simp)
      | some field =>
        rw [cellChangeForKey_eq rm fm a b c ad1 trec recd field h1 h2 h3,
          cellChangeForKey_eq rm fm a b c ad2 trec recd field h1 h2 h3]
        exact synthOne_addDel_perm a b c field ((aget recd c).join) ad1 ad2 hA hD

/-- C9 amended: under reordering of the batch's contexts, the aggregated diff
has the same keys with per-key `add`/`del` lists equal up to permutation, and
the per-key Change Synthesizer consequently fails on the same keys and emits,
for each foreign record key, a change with the same old value and a new value
equal up to reordering of OneToMany list entries (ManyToOne values exactly
equal). -/
theorem claim9_amended_perm (tableId : String) (fm : ITinyFieldMapByTableId)
    (rm : IRecordMapByTableId) (l1 l2 : List ICellContext) (m1 m2 : ICellMutation)
    (hperm : l1.Perm l2)
    (h1 : getCellMutation tableId fm l1 = Except.ok m1)
    (h2 : getCellMutation tableId fm l2 = Except.ok m2) :
    ∀ a b c,
      ((aget3 m1 a b c).isSome ↔ (aget3 m2 a b c).isSome) ∧
      (addsAt m1 a b c).Perm (addsAt m2 a b c) ∧
      (delsAt m1 a b c).Perm (delsAt m2 a b c) ∧
      (∀ ad1 ad2, aget3 m1 a b c = some ad1 → aget3 m2 a b c = some ad2 →
        ((∃ e, cellChangeForKey rm fm a b c ad1 = Except.error e) ↔
          (∃ e, cellChangeForKey rm fm a b c ad2 = Except.error e)) ∧
        (∀ ch1 ch2, cellChangeForKey rm fm a b c ad1 = Except.ok ch1 →
            cellChangeForKey rm fm a b c ad2 = Except.ok ch2 →
          ch1.oldValue = ch2.oldValue ∧ valuePerm ch1.newValue ch2.newValue)) := by
  intro a b c
  obtain ⟨ha1, hd1⟩ := getCellMutation_addsAt_delsAt tableId fm l1 m1 h1 a b c
  obtain ⟨ha2, hd2⟩ := getCellMutation_addsAt_delsAt tableId fm l2 m2 h2 a b c
  have hpa : (addsAt m1 a b c).Perm (addsAt m2 a b c) := by
    rw [ha1, ha2]
    exact hperm.flatMap_right _
  have hpd : (delsAt m1 a b c).Perm (delsAt m2 a b c) := by
    rw [hd1, hd2]
    exact hperm.flatMap_right _
  have inv1 := mutInv_getCellMutation tableId fm l1 m1 h1
  have inv2 := mutInv_getCellMutation tableId fm l2 m2 h2
  have hiff : ((aget3 m1 a b c).isSome ↔ (aget3 m2 a b c).isSome) := by
    rw [inv1 a b c, inv2 a b c]
    constructor
    · rintro (h | h)
      · exact Or.inl ((perm_ne_nil_iff hpa).mp h)
      · exact Or.inr ((perm_ne_nil_iff hpd).mp h)
    · rintro (h | h)
      · exact Or.inl ((perm_ne_nil_iff hpa).mpr h)
      · exact Or.inr ((perm_ne_nil_iff hpd).mpr h)
  refine ⟨hiff, hpa, hpd, ?_⟩
  intro ad1 ad2 hm1 hm2
  have e1 : addsAt m1 a b c = ad1.add := by simp only [addsAt, hm1]
  have e2 : addsAt m2 a b c = ad2.add := by simp only [addsAt, hm2]
  have e3 : delsAt m1 a b c = ad1.del := by simp only [delsAt, hm1]
  have e4 : delsAt m2 a b c = ad2.del := by simp only [delsAt, hm2]
  have hA : ad1.add.Perm ad2.add := by rw [← e1, ← e2]; exact hpa
  have hD : ad1.del.Perm ad2.del := by rw [← e3, ← e4]; exact hpd
  exact cellChangeForKey_addDel_perm rm fm a b c ad1 ad2 hA hD

/-- Witness for the amended C9: the two orders of the two link contexts. -/
theorem claim9_witness :
    ([fxCtxLink, fxCtxLink2].Perm [fxCtxLink2, fxCtxLink]) ∧
    (getCellMutation "tblA" fxFieldMap [fxCtxLink, fxCtxLink2] =
      Except.ok [("tblB", [("recB1", [("fldS", ⟨["recA1", "recA2"], []⟩)])])]) ∧
    (getCellMutation "tblA" fxFieldMap [fxCtxLink2, fxCtxLink] =
      Except.ok [("tblB", [("recB1", [("fldS", ⟨["recA2", "recA1"], []⟩)])])]) ∧
    (∀ a b c,
      ((aget3 [("tblB", [("recB1", [("fldS", ⟨["recA1", "recA2"], []⟩)])])] a b c).isSome ↔
        (aget3 [("tblB", [("recB1", [("fldS", ⟨["recA2", "recA1"], []⟩)])])] a b c).isSome) ∧
      (addsAt [("tblB", [("recB1", [("fldS", ⟨["recA1", "recA2"], []⟩)])])] a b c).Perm
        (addsAt [("tblB", [("recB1", [("fldS", ⟨["recA2", "recA1"], []⟩)])])] a b c) ∧
      (delsAt [("tblB", [("recB1", [("fldS", ⟨["recA1", "recA2"], []⟩)])])] a b c).Perm
        (delsAt [("tblB", [("recB1", [("fldS", ⟨["recA2", "recA1"], []⟩)])])] a b c) ∧
      (∀ ad1 ad2,
        aget3 [("tblB", [("recB1", [("fldS", ⟨["recA1", "recA2"], []⟩)])])] a b c = some ad1 →
        aget3 [("tblB", [("recB1", [("fldS", ⟨["recA2", "recA1"], []⟩)])])] a b c = some ad2 →
        ((∃ e, cellChangeForKey fxRecB1Empty fxFieldMap a b c ad1 = Except.error e) ↔
          (∃ e, cellChangeForKey fxRecB1Empty fxFieldMap a b c ad2 = Except.error e)) ∧
        (∀ ch1 ch2, cellChangeForKey fxRecB1Empty fxFieldMap a b c ad1 = Except.ok ch1 →
            cellChangeForKey fxRecB1Empty fxFieldMap a b c ad2 = Except.ok ch2 →
          ch1.oldValue = ch2.oldValue ∧ valuePerm ch1.newValue ch2.newValue))) :=
  ⟨List.Perm.swap fxCtxLink2 fxCtxLink [], rfl, rfl,
   claim9_amended_perm "tblA" fxFieldMap fxRecB1Empty [fxCtxLink, fxCtxLink2]
     [fxCtxLink2, fxCtxLink]
     [("tblB", [("recB1", [("fldS", ⟨["recA1", "recA2"], []⟩)])])]
     [("tblB", [("recB1", [("fldS", ⟨["recA2", "recA1"], []⟩)])])]
     (List.Perm.swap fxCtxLink2 fxCtxLink []) rfl rfl⟩

/-! ## Claim C5 -/

/-- A storage snapshot with the mirror pair's metadata and two physical
tables. -/
def fxDb : Db :=
  { fields := [fxFieldA, fxFieldS],
    tableMeta := [("tblA", "t_a"), ("tblB", "t_b")],
    tables := [("t_a", [⟨"recA1", []⟩]), ("t_b", [⟨"recB1", []⟩])] }

/-- C5: a batch in which no context's old or new value is link-shaped makes
the engine return the empty list with an empty storage-operation trace — no
metadata read, no record read, no write. -/
theorem claim5_no_link_no_storage (tableId : String) (contexts : List ICellContext)
    (h : ∀ ctx ∈ contexts, isLinkCell ctx.newValue = false ∧ isLinkCell ctx.oldValue = false) :
    ∀ db, getDerivateChangesByLink tableId contexts db = ([], Except.ok []) := by
  intro db
  have hfil : filterLinkContext contexts = [] := by
    apply List.filter_eq_nil_iff.mpr
    intro ctx hc
    obtain ⟨hn, ho⟩ := h ctx hc
    simp [hn, ho]
  simp only [getDerivateChangesByLink, hfil]
  rfl

/-- Witness for C5: a batch with one non-link edit (a bare reference whose id
lacks the record prefix) against a populated storage snapshot. -/
theorem claim5_witness :
    (∀ ctx ∈ [(⟨"r1", "f1", none, some (CellValue.one "xyz")⟩ : ICellContext)],
      isLinkCell ctx.newValue = false ∧ isLinkCell ctx.oldValue = false) ∧
    (getDerivateChangesByLink "tblA"
      [(⟨"r1", "f1", none, some (CellValue.one "xyz")⟩ : ICellContext)] fxDb =
      ([], Except.ok [])) :=
  ⟨by decide,
   claim5_no_link_no_storage "tblA"
     [(⟨"r1", "f1", none, some (CellValue.one "xyz")⟩ : ICellContext)] (by decide) fxDb⟩

/-! ## Claim C6 -/

/-- The resolver's value on any snapshot: one `findMany`, then the rows whose
ids were requested, parsed (identity in this model). -/
theorem getTinyFieldsByIds_apply (fieldIds : List String) (db : Db) :
    getTinyFieldsByIds fieldIds db =
      ([DbOp.fieldFindMany fieldIds],
       Except.ok ((db.fields.filter (fun fld => fieldIds.contains fld.id)).map
         (fun field => field))) := rfl

/-- C6 counterexample: requesting a field id that has no metadata row does
not fail: on an empty metadata table the resolver returns `ok []` after its
single `findMany`, and never an error — there is no `NotFoundError` path. -/
theorem claim6_counterexample :
    (getTinyFieldsByIds ["fld1"] ⟨[], [], []⟩ =
      ([DbOp.fieldFindMany ["fld1"]], Except.ok [])) ∧
    (∀ e, (getTinyFieldsByIds ["fld1"] ⟨[], [], []⟩).2 ≠ Except.error e) := by
  refine ⟨rfl, ?_⟩
  intro e hc
  rw [show (getTinyFieldsByIds ["fld1"] ⟨[], [], []⟩).2 = Except.ok [] from rfl] at hc
  exact Except.noConfusion hc

/-- C6 amended: a requested field id with no metadata row is silently
omitted: `getTinyFieldsByIds` always succeeds, returning exactly descriptors
of requested ids that have rows, and `getTinyFieldMapByTableId` propagates no
error either. -/
theorem claim6_amended_silent_omission (db : Db) (fieldIds : List String) :
    (∃ l, (getTinyFieldsByIds fieldIds db).2 = Except.ok l ∧
      ∀ fld ∈ l, fld ∈ db.fields ∧ fld.id ∈ fieldIds) ∧
    (∃ m, (getTinyFieldMapByTableId fieldIds db).2 = Except.ok m) := by
  constructor
  · refine ⟨(db.fields.filter (fun fld => fieldIds.contains fld.id)).map
      (fun field => field), ?_, ?_⟩
    · rw [getTinyFieldsByIds_apply]
    · intro fld hf
      rw [List.mem_map] at hf
      obtain ⟨fld2, hf2, he⟩ := hf
      subst he
      have := List.mem_filter.mp hf2
      exact ⟨this.1, List.elem_iff.mp this.2⟩
  · exact ⟨_, rfl⟩

/-! ## Claim C4 -/

/-- The write the spec prescribes for one derived change: a ManyOne field
gets exactly one update of its foreign-key column on the change's own table,
setting it to the new single reference's id (or null when absent), keyed by
the record identity column; any other field gets no write. -/
def specFkWrite (tableId2DbTableName : List (String × String))
    (fieldMapByTableId : ITinyFieldMapByTableId) (change : ICellChange) : Option DbOp :=
  match aget2 fieldMapByTableId change.tableId change.fieldId with
  | some field =>
    if field.options.relationship = Relationship.manyOne then
      some (DbOp.updateRecord ((aget tableId2DbTableName change.tableId).getD "")
        field.options.dbForeignKeyName
        (match change.newValue with
         | some (CellValue.one i) => some i
         | _ => none)
        change.recordId)
    else none
  | none => none

/-- C4: for a batch of derived changes whose fields resolve (and whose
ManyOne changes have a known table name and a well-shaped single-or-absent
new value), the Foreign Key Writer issues exactly one `UPDATE` per ManyOne
change — setting the foreign-key column to the new id or null, keyed by the
record identity column — and no write at all for OneMany changes. -/
theorem claim4_foreign_key_writes (tableId2DbTableName : List (String × String))
    (fm : ITinyFieldMapByTableId) (changes : List ICellChange)
    (h : ∀ ch ∈ changes, ∃ field, aget2 fm ch.tableId ch.fieldId = some field ∧
      (field.options.relationship = Relationship.manyOne →
        (∃ n, aget tableId2DbTableName ch.tableId = some n) ∧
        (ch.newValue = none ∨ ∃ i, ch.newValue = some (CellValue.one i)))) :
    ∀ db, updateForeignKey tableId2DbTableName fm changes db =
      (changes.filterMap (specFkWrite tableId2DbTableName fm), Except.ok ()) := by
  induction changes with
  | nil => intro db; rfl
  | cons ch rest ih =>
    intro db
    obtain ⟨field, hf, himp⟩ := h ch (List.mem_cons_self ch rest)
    have hrest := ih (fun ch2 hc2 => h ch2 (List.mem_cons_of_mem ch hc2))
    by_cases hrel : field.options.relationship = Relationship.manyOne
    · obtain ⟨⟨n, hn⟩, hshape⟩ := himp hrel
      have hnotne : ¬ field.options.relationship ≠ Relationship.manyOne := by
        rw [hrel]; simp
      rcases hshape with hv | ⟨i, hv⟩ <;>
        simp [updateForeignKey, hf, hnotne, hn, hv, fkWriteValue, hrest db,
          specFkWrite, hrel, List.filterMap_cons]
    · simp [updateForeignKey, hf, hrel, hrest db, specFkWrite, List.filterMap_cons]

/-- Witness for C4: one ManyOne change (written) and one OneMany change (not
written) against the fixture metadata. -/
theorem claim4_witness :
    (∀ ch ∈ [(⟨"tblA", "recA1", "fldA", none, some (CellValue.one "recB1")⟩ : ICellChange),
             (⟨"tblB", "recB1", "fldS", none, some (CellValue.many ["recA1"])⟩ : ICellChange)],
      ∃ field, aget2 fxFieldMap ch.tableId ch.fieldId = some field ∧
        (field.options.relationship = Relationship.manyOne →
          (∃ n, aget [("tblA", "t_a"), ("tblB", "t_b")] ch.tableId = some n) ∧
          (ch.newValue = none ∨ ∃ i, ch.newValue = some (CellValue.one i)))) ∧
    (updateForeignKey [("tblA", "t_a"), ("tblB", "t_b")] fxFieldMap
      [(⟨"tblA", "recA1", "fldA", none, some (CellValue.one "recB1")⟩ : ICellChange),
       (⟨"tblB", "recB1", "fldS", none, some (CellValue.many ["recA1"])⟩ : ICellChange)] fxDb =
      ([(⟨"tblA", "recA1", "fldA", none, some (CellValue.one "recB1")⟩ : ICellChange),
        (⟨"tblB", "recB1", "fldS", none, some (CellValue.many ["recA1"])⟩ : ICellChange)].filterMap
          (specFkWrite [("tblA", "t_a"), ("tblB", "t_b")] fxFieldMap),
       Except.ok ())) := by
  constructor
  · intro ch hch
    simp only [List.mem_cons, List.not_mem_nil, or_false] at hch
    rcases hch with hc | hc <;> subst hc
    · exact ⟨fxFieldA, by decide, fun _ => ⟨⟨"t_a", by decide⟩, Or.inr ⟨"recB1", by decide⟩⟩⟩
    · exact ⟨fxFieldS, by decide, fun hrel => absurd hrel (by decide)⟩
  · exact claim4_foreign_key_writes [("tblA", "t_a"), ("tblB", "t_b")] fxFieldMap
      [(⟨"tblA", "recA1", "fldA", none, some (CellValue.one "recB1")⟩ : ICellChange),
       (⟨"tblB", "recB1", "fldS", none, some (CellValue.many ["recA1"])⟩ : ICellChange)]
      (by
        intro ch hch
        simp only [List.mem_cons, List.not_mem_nil, or_false] at hch
        rcases hch with hc | hc <;> subst hc
        · exact ⟨fxFieldA, by decide, fun _ => ⟨⟨"t_a", by decide⟩, Or.inr ⟨"recB1", by decide⟩⟩⟩
        · exact ⟨fxFieldS, by decide, fun hrel => absurd hrel (by decide)⟩)
      fxDb

end LinkService
